import Mathlib

/-!
Verification development for the swarm market-research example.

The two tool bodies `get_stock_data` and `get_news` are embedded from the
source file swarm.py.  Python strings are modelled as `List Char`; Python
dictionaries whose key set matters are modelled as association lists in the
literal order of the source.  Exception-raising segments of a `try` block are
modelled by an `Except` input describing the outcome of the fallible part.

The orchestration engine (agent roster, handoff routing, termination) is
configured in swarm.py but implemented in the external autogen library; those
parts are modelled from the spec, as marked in their doc comments.
-/

namespace SwarmSpec

/-! ## Python string helpers -/

/-- Whitespace characters stripped by the Python method `str.strip`. -/
def isPyWs (c : Char) : Bool :=
  c == ' ' || c == '\t' || c == '\n' || c == '\r' ||
  c == Char.ofNat 11 || c == Char.ofNat 12

/-- Drop leading Python whitespace. -/
def stripLeft (l : List Char) : List Char := l.dropWhile isPyWs

/-- Drop trailing Python whitespace. -/
def stripRight (l : List Char) : List Char := (l.reverse.dropWhile isPyWs).reverse

/-- The Python method `str.strip` with no argument. -/
def pstrip (l : List Char) : List Char := stripRight (stripLeft l)

/-- Whether `pat` is a leading segment of `s`. -/
def startsWithL : List Char → List Char → Bool
  | [], _ => true
  | _ :: _, [] => false
  | p :: ps, c :: cs => p == c && startsWithL ps cs

/-- Whether `pat` occurs as a contiguous substring of `s`
(the Python operator `in` on strings). -/
def containsSub (pat : List Char) : List Char → Bool
  | [] => startsWithL pat []
  | c :: cs => startsWithL pat (c :: cs) || containsSub pat cs

theorem startsWithL_iff (pat s : List Char) :
    startsWithL pat s = true ↔ ∃ r, s = pat ++ r := by
  induction pat generalizing s with
  | nil => simp [startsWithL]
  | cons p ps ih =>
    cases s with
    | nil =>
      simp [startsWithL]
    | cons c cs =>
      simp only [startsWithL, Bool.and_eq_true, beq_iff_eq, ih]
      constructor
      · rintro ⟨rfl, r, rfl⟩
        exact ⟨r, rfl⟩
      · rintro ⟨r, hr⟩
        rw [List.cons_append] at hr
        cases hr
        exact ⟨rfl, r, rfl⟩

theorem containsSub_iff (pat s : List Char) :
    containsSub pat s = true ↔ ∃ l r, s = l ++ pat ++ r := by
  induction s with
  | nil =>
    simp only [containsSub, startsWithL_iff]
    constructor
    · rintro ⟨r, hr⟩
      exact ⟨[], r, by simpa using hr⟩
    · rintro ⟨l, r, hr⟩
      obtain ⟨rfl, rfl, rfl⟩ : l = [] ∧ pat = [] ∧ r = [] := by simpa using hr.symm
      exact ⟨[], by simp⟩
  | cons c cs ih =>
    simp only [containsSub, Bool.or_eq_true, startsWithL_iff, ih]
    constructor
    · rintro (⟨r, hr⟩ | ⟨l, r, hr⟩)
      · exact ⟨[], r, by simpa using hr⟩
      · exact ⟨c :: l, r, by simp [hr]⟩
    · rintro ⟨l, r, hr⟩
      cases l with
      | nil => exact Or.inl ⟨r, by simpa using hr⟩
      | cons x xs =>
        rw [List.cons_append, List.cons_append] at hr
        cases hr
        exact Or.inr ⟨xs, r, rfl⟩

/-! ## Stock data tool (`get_stock_data` in swarm.py) -/

/-- A Python value appearing in the dictionaries returned by the tools. -/
inductive Val where
  | none
  | float (q : ℚ)
  | int (n : ℤ)
  | str (s : List Char)
  deriving DecidableEq

/-- A Python dictionary, as an association list in literal order. -/
def Dict := List (String × Val)

/-- Look a key up in a dictionary. -/
def lookupD (k : String) (d : Dict) : Option Val :=
  (d.find? (fun p => p.1 == k)).map (fun p => p.2)

/-- The data fetched from yfinance inside the `try` block of
`get_stock_data`: the one-day closing-price history and the three
`info.get` fields (each of which Python may report as `None`). -/
structure StockData where
  closes : List ℚ
  volume : Option ℤ
  peRatio : Option ℚ
  marketCap : Option ℤ

/-- Embedding of `get_stock_data` (swarm.py, lines 32-72).  The argument
`outcome` is the result of the fallible fetching segment: `.ok` carries the
fetched data, `.error` carries the message of the raised exception, which the
`except` clause turns into the error dictionary.  `now` is the formatted
current time used for the `last_updated` field. -/
def get_stock_data (now : List Char) (outcome : Except (List Char) StockData) : Dict :=
  match outcome with
  | .ok d =>
      [("price", (d.closes.getLast?).elim Val.none Val.float),
       ("volume", (d.volume).elim Val.none Val.int),
       ("pe_ratio", (d.peRatio).elim Val.none Val.float),
       ("market_cap", (d.marketCap).elim Val.none Val.int),
       ("last_updated", Val.str now)]
  | .error e =>
      [("price", Val.none),
       ("volume", Val.none),
       ("pe_ratio", Val.none),
       ("market_cap", Val.none),
       ("error", Val.str e)]

/-- C1: on any exception the tool still returns one dictionary, whose four
data fields are all `None` and which carries the exception message under
the key `error`.  The embedding is a total function, so a result is
produced on every outcome; this theorem pins down the failure branch. -/
theorem c1_stock_error_dict (now e : List Char) :
    ((get_stock_data now (.error e)).map (fun p => p.1)
        = ["price", "volume", "pe_ratio", "market_cap", "error"]) ∧
    lookupD "price" (get_stock_data now (.error e)) = some Val.none ∧
    lookupD "volume" (get_stock_data now (.error e)) = some Val.none ∧
    lookupD "pe_ratio" (get_stock_data now (.error e)) = some Val.none ∧
    lookupD "market_cap" (get_stock_data now (.error e)) = some Val.none ∧
    lookupD "error" (get_stock_data now (.error e)) = some (Val.str e) := by
  refine ⟨rfl, rfl, rfl, rfl, rfl, rfl⟩

/-- C6: on the success path the returned dictionary has exactly the keys
`price`, `volume`, `pe_ratio`, `market_cap`, `last_updated`, and the price is
the last closing value of the one-day history when that history is non-empty,
`None` when it is empty. -/
theorem c6_stock_success (now : List Char) (d : StockData) :
    ((get_stock_data now (.ok d)).map (fun p => p.1)
        = ["price", "volume", "pe_ratio", "market_cap", "last_updated"]) ∧
    (∀ h : d.closes ≠ [],
        lookupD "price" (get_stock_data now (.ok d))
          = some (Val.float (d.closes.getLast h))) ∧
    (d.closes = [] →
        lookupD "price" (get_stock_data now (.ok d)) = some Val.none) := by
  refine ⟨rfl, ?_, ?_⟩
  · intro h
    simp [get_stock_data, lookupD, List.find?, List.getLast?_eq_getLast _ h]
  · intro h
    simp [get_stock_data, lookupD, List.find?, h]

/-- Witness for C6 at a concrete two-element history. -/
theorem c6_stock_success_witness :
    lookupD "price"
        (get_stock_data [] (.ok ⟨[(1 : ℚ), 2], none, none, none⟩))
      = some (Val.float 2) := by
  have h : ([(1 : ℚ), 2] : List ℚ) ≠ [] := by decide
  have := (c6_stock_success [] ⟨[(1 : ℚ), 2], none, none, none⟩).2.1 h
  simpa using this

/-! ## List lemmas for strip -/

theorem dropWhile_append_nil (p : Char → Bool) {l₁ : List Char} (l₂ : List Char)
    (h : l₁.dropWhile p = []) :
    (l₁ ++ l₂).dropWhile p = l₂.dropWhile p := by
  induction l₁ with
  | nil => simp
  | cons a t ih =>
    by_cases hp : p a
    · rw [List.dropWhile_cons_of_pos hp] at h
      rw [List.cons_append, List.dropWhile_cons_of_pos hp]
      exact ih h
    · rw [List.dropWhile_cons_of_neg hp] at h
      exact absurd h (by simp)

theorem dropWhile_append_cons (p : Char → Bool) {l₁ : List Char} (l₂ : List Char)
    (h : l₁.dropWhile p ≠ []) :
    (l₁ ++ l₂).dropWhile p = l₁.dropWhile p ++ l₂ := by
  induction l₁ with
  | nil => simp at h
  | cons a t ih =>
    by_cases hp : p a
    · rw [List.dropWhile_cons_of_pos hp] at h
      rw [List.cons_append, List.dropWhile_cons_of_pos hp, List.dropWhile_cons_of_pos hp]
      exact ih h
    · rw [List.cons_append, List.dropWhile_cons_of_neg hp, List.dropWhile_cons_of_neg hp]
      rfl

theorem stripRight_append_ws (l : List Char) :
    ∃ w, l = stripRight l ++ w := by
  refine ⟨(l.reverse.takeWhile isPyWs).reverse, ?_⟩
  unfold stripRight
  rw [← List.reverse_append, List.takeWhile_append_dropWhile, List.reverse_reverse]

theorem isPyWs_space : isPyWs ' ' = true := rfl

/-- Stripping a string extended on the right by a space and more text keeps
the stripped original as a leading segment. -/
theorem pstrip_append_exists (s a : List Char) :
    ∃ r, pstrip (s ++ ' ' :: a) = pstrip s ++ r := by
  unfold pstrip stripLeft
  cases hs : s.dropWhile isPyWs with
  | nil =>
    refine ⟨stripRight ((s ++ ' ' :: a).dropWhile isPyWs), ?_⟩
    simp [stripRight]
  | cons c cs =>
    have h1 : (s ++ ' ' :: a).dropWhile isPyWs = (c :: cs) ++ ' ' :: a := by
      rw [dropWhile_append_cons isPyWs (' ' :: a) (by simp [hs]), hs]
    rw [h1]
    have hrev : ((c :: cs) ++ ' ' :: a).reverse = a.reverse ++ ' ' :: (c :: cs).reverse := by
      rw [List.reverse_append, List.reverse_cons, List.append_assoc]
      rfl
    have key : stripRight ((c :: cs) ++ ' ' :: a)
        = ((a.reverse ++ ' ' :: (c :: cs).reverse).dropWhile isPyWs).reverse := by
      unfold stripRight
      rw [hrev]
    cases ha : a.reverse.dropWhile isPyWs with
    | nil =>
      refine ⟨[], ?_⟩
      rw [key, dropWhile_append_nil isPyWs _ ha, List.dropWhile_cons_of_pos isPyWs_space]
      simp [stripRight]
    | cons d ds =>
      obtain ⟨w, hw⟩ := stripRight_append_ws (c :: cs)
      refine ⟨w ++ ' ' :: (d :: ds).reverse, ?_⟩
      rw [key, dropWhile_append_cons isPyWs _ (by simp [ha]), ha,
        List.reverse_append, List.reverse_cons, List.reverse_reverse]
      conv_lhs => rw [hw]
      simp [List.append_assoc]

/-! ## News tool (`get_news` in swarm.py) -/

/-- Value of a digit character. -/
def digitVal (c : Char) : Nat := c.toNat - 48

/-- Whether every character of the list is a decimal digit. -/
def allDigits (l : List Char) : Bool := l.all Char.isDigit

/-- The natural number denoted by a list of digit characters. -/
def natOfDigits (l : List Char) : Nat := l.foldl (fun acc c => 10 * acc + digitVal c) 0

/-- Gregorian leap-year rule used by the Python datetime module. -/
def isLeap (y : Nat) : Bool := y % 4 == 0 && (y % 100 != 0 || y % 400 == 0)

/-- Number of days in a month, as validated by datetime construction. -/
def daysInMonth (y m : Nat) : Nat :=
  if m == 2 then (if isLeap y then 29 else 28)
  else if m == 4 || m == 6 || m == 9 || m == 11 then 30
  else 31

/-- Split a list on a separator character (the Python method `str.split`). -/
def splitOnChar (sep : Char) : List Char → List (List Char)
  | [] => [[]]
  | c :: cs =>
    if c == sep then [] :: splitOnChar sep cs
    else
      match splitOnChar sep cs with
      | [] => [[c]]
      | h :: t => (c :: h) :: t

/-- Embedding of `datetime.strptime(text, m-slash-d-slash-Y)` followed by
datetime construction, returning `(month, day, year)`.  CPython matches the
month directive against one or two digits denoting 1..12, the day against one
or two digits denoting 1..31, the year against exactly four digits, with
literal slashes in between and nothing left over; constructing the datetime
then requires year at least 1 and a day valid for the month. -/
def strptime_mdY (l : List Char) : Option (Nat × Nat × Nat) :=
  match splitOnChar '/' l with
  | [ms, ds, ys] =>
    if allDigits ms && allDigits ds && allDigits ys
        && (ms.length == 1 || ms.length == 2)
        && (ds.length == 1 || ds.length == 2)
        && ys.length == 4 then
      let m := natOfDigits ms
      let d := natOfDigits ds
      let y := natOfDigits ys
      if 1 ≤ m ∧ m ≤ 12 ∧ 1 ≤ d ∧ 1 ≤ y ∧ d ≤ daysInMonth y m then
        some (m, d, y)
      else none
    else none
  | _ => none

/-- Left-pad a digit string with zeros to width `k`. -/
def pad (k : Nat) (l : List Char) : List Char := List.replicate (k - l.length) '0' ++ l

/-- Decimal digit string of a natural number. -/
def natDigits (n : Nat) : List Char := Nat.toDigits 10 n

/-- Embedding of `strftime` with the Y-m-d format: zero-padded year, month
and day joined by hyphens. -/
def fmtYmd (y m d : Nat) : List Char :=
  pad 4 (natDigits y) ++ '-' :: (pad 2 (natDigits m) ++ '-' :: pad 2 (natDigits d))

/-- Date formatting block of `get_news` (swarm.py, lines 108-117): the inner
`try` parses the portion of the date string before the first comma and
reformats it; an empty date string is replaced by the current date `today`
(given as year, month, day); a parse failure is caught by the bare `except`,
which keeps the original string. -/
def formatDate (today : Nat × Nat × Nat) (ds : List Char) : List Char :=
  if ds.isEmpty then fmtYmd today.1 today.2.1 today.2.2
  else
    match strptime_mdY (ds.takeWhile (fun c => c != ',')) with
    | some (m, d, y) => fmtYmd y m d
    | none => ds

/-- One article of the serpapi `news_results` payload, with the fields read
by `get_news`. -/
structure Article where
  title : List Char
  snippet : List Char
  description : List Char
  linkText : List Char
  date : List Char
  sourceName : List Char
  authors : List (List Char)
  deriving DecidableEq

/-- A dictionary of the news items, all of whose values are strings. -/
def NewsDict := List (String × List Char)

/-- Look a key up in a news dictionary. -/
def lookupN (k : String) (d : NewsDict) : Option (List Char) :=
  (d.find? (fun p => p.1 == k)).map (fun p => p.2)

/-- The author credit appended to the summary. -/
def authorText (authors : List (List Char)) : List Char :=
  match authors with
  | [] => []
  | _ => "By ".data ++ List.intercalate (", ".data) authors

/-- Python `max` over a non-empty list keyed by length: the accumulator is
replaced only by a strictly longer element, so the first element of maximal
length wins. -/
def maxByLen (acc : List Char) : List (List Char) → List Char
  | [] => acc
  | x :: xs => maxByLen (if acc.length < x.length then x else acc) xs

/-- The truthy candidates for the summary, in source order. -/
def summaryCandidates (a : Article) : List (List Char) :=
  [a.snippet, a.description, a.linkText].filter (fun s => !s.isEmpty)

/-- The chosen summary text: the first longest non-empty candidate, falling
back to the stripped title. -/
def chosenSummary (a : Article) : List Char :=
  match summaryCandidates a with
  | [] => pstrip a.title
  | c :: cs => maxByLen c cs

/-- Embedding of the loop body of `get_news` (swarm.py, lines 91-126)
building one news item. -/
def processArticle (today : Nat × Nat × Nat) (a : Article) : NewsDict :=
  [("title", pstrip a.title),
   ("date", formatDate today a.date),
   ("summary", pstrip (chosenSummary a ++ ' ' :: authorText a.authors)),
   ("source", a.sourceName)]

/-- Embedding of `get_news` (swarm.py, lines 75-132).  The argument
`outcome` is the result of the fallible search segment: `.ok` carries the
`news_results` list, `.error` the message of the raised exception.  The
`except` clause returns the empty list. -/
def get_news (today : Nat × Nat × Nat) (outcome : Except (List Char) (List Article)) :
    List NewsDict :=
  match outcome with
  | .ok articles => articles.map (processArticle today)
  | .error _ => []

/-- C7 counterexample: the claim that an error raised inside the `get_news`
tool body surfaces as a failure result is false — at the concrete outcome of
a raised network-failure exception, `get_news` returns the plain empty list,
the very value a successful search with no results returns, carrying no error
indication at all. -/
theorem c7_counterexample :
    get_news (2024, 1, 1) (.error ("network failure".data))
        = get_news (2024, 1, 1) (.ok []) ∧
    get_news (2024, 1, 1) (.error ("network failure".data)) = [] :=
  ⟨rfl, rfl⟩

/-- C7 amended: an error raised inside the `try` block of `get_news` is
caught by its `except` clause, which discards the error and returns the
empty list — indistinguishable from an empty successful search — and the
conversation continues with that value as the tool result. -/
theorem c7_news_error_swallowed (today : Nat × Nat × Nat) (e : List Char) :
    get_news today (.error e) = [] := rfl

/-- Article with a leading-whitespace snippet, refuting C9 as stated. -/
def artX : Article :=
  ⟨"T".data, " a".data, [], [], [], "S".data, []⟩

/-- C9 counterexample: for an article whose only non-empty summary candidate
is the snippet with a leading space, the chosen candidate is that snippet,
but the returned summary field is stripped of the leading space and so does
not begin with the candidate. -/
theorem c9_counterexample :
    summaryCandidates artX = [" a".data] ∧
    chosenSummary artX = " a".data ∧
    lookupN "summary" (processArticle (2024, 1, 1) artX) = some ("a".data) ∧
    startsWithL (" a".data) ("a".data) = false := by
  refine ⟨rfl, rfl, ?_, rfl⟩
  rfl

/-- C9 amended: every news item carries exactly the keys `title`, `date`,
`summary`, `source`, and its summary field begins with the
whitespace-stripped chosen summary (the first longest non-empty string among
snippet, description and link text, falling back to the stripped title when
all three are empty). -/
theorem c9_news_item_shape (today : Nat × Nat × Nat) (a : Article) :
    ((processArticle today a).map (fun p => p.1)
        = ["title", "date", "summary", "source"]) ∧
    ∃ r, lookupN "summary" (processArticle today a)
        = some (pstrip (chosenSummary a) ++ r) := by
  refine ⟨rfl, ?_⟩
  obtain ⟨r, hr⟩ := pstrip_append_exists (chosenSummary a) (authorText a.authors)
  refine ⟨r, ?_⟩
  have hl : lookupN "summary" (processArticle today a)
      = some (pstrip (chosenSummary a ++ ' ' :: authorText a.authors)) := rfl
  rw [hl, hr]

/-- C10: the date field of a news item is the reformatted (Y-m-d) parse of
the portion of the article date before the first comma when that parses in
the m-slash-d-slash-Y format; the current date when the date string is
empty; and the original string unchanged when parsing fails. -/
theorem c10_date_formatting (today : Nat × Nat × Nat) (ds : List Char) :
    (ds = [] → formatDate today ds = fmtYmd today.1 today.2.1 today.2.2) ∧
    (∀ m d y, ds ≠ [] →
      strptime_mdY (ds.takeWhile (fun c => c != ',')) = some (m, d, y) →
      formatDate today ds = fmtYmd y m d) ∧
    (ds ≠ [] → strptime_mdY (ds.takeWhile (fun c => c != ',')) = none →
      formatDate today ds = ds) := by
  refine ⟨?_, ?_, ?_⟩
  · rintro rfl
    rfl
  · intro m d y hne hp
    cases ds with
    | nil => exact absurd rfl hne
    | cons c cs => simp [formatDate, hp]
  · intro hne hp
    cases ds with
    | nil => exact absurd rfl hne
    | cons c cs => simp [formatDate, hp]

/-- Witness for C10 at a concrete serpapi-style date string with a comma. -/
theorem c10_date_formatting_witness :
    formatDate (2024, 1, 1) ("12/25/2023, 10:00 AM".data) = fmtYmd 2023 12 25 :=
  (c10_date_formatting (2024, 1, 1) ("12/25/2023, 10:00 AM".data)).2.1 12 25 2023
    (by decide) (by decide)

/-! ## Agent roster (configured in `main`, swarm.py lines 138-190) -/

/-- Configuration of one assistant agent: its name, its declared handoff
targets and its tool names, as passed to the constructor in `main`. -/
structure AgentCfg where
  name : String
  handoffs : List String
  tools : List String
  deriving DecidableEq

/-- The planner agent (swarm.py, line 138). -/
def planner : AgentCfg :=
  ⟨"planner", ["financial_analyst", "news_analyst", "writer"], []⟩

/-- The financial analyst agent (swarm.py, line 152). -/
def financial_analyst : AgentCfg :=
  ⟨"financial_analyst", ["planner"], ["get_stock_data"]⟩

/-- The news analyst agent (swarm.py, line 163). -/
def news_analyst : AgentCfg :=
  ⟨"news_analyst", ["planner"], ["get_news"]⟩

/-- The writer agent (swarm.py, line 174). -/
def writer : AgentCfg :=
  ⟨"writer", ["planner"], []⟩

/-- The participants registered with the swarm, in order (swarm.py,
line 188). -/
def participants : List AgentCfg :=
  [planner, financial_analyst, news_analyst, writer]

/-- C2: every registered agent's handoff list names only registered
participants, and no agent lists itself. -/
theorem c2_handoffs_wellformed :
    ∀ a ∈ participants,
      a.handoffs ⊆ participants.map AgentCfg.name ∧ a.name ∉ a.handoffs := by
  decide

/-- Witness for C2 at the planner. -/
theorem c2_handoffs_wellformed_witness :
    planner.handoffs ⊆ participants.map AgentCfg.name ∧
    planner.name ∉ planner.handoffs :=
  c2_handoffs_wellformed planner (by decide)

/-! ## Orchestration model

The swarm loop itself lives in the autogen library, outside this repository;
the following definitions are modelled from the spec (sections 4.1, 4.2 and
4.4), instantiated with the roster, termination pattern and task configured
in swarm.py. -/

/-- The content kind of a transcript message. -/
inductive Kind where
  | task
  | text
  | toolCall
  | toolResult
  | handoffDirective
  | errorMsg
  deriving DecidableEq

/-- One transcript message: its sender, content kind and text body. -/
structure Msg where
  sender : String
  kind : Kind
  body : List Char
  deriving DecidableEq

/-- Conversation state owned by the orchestrator. -/
structure ConvState where
  transcript : List Msg
  active : String
  turnCount : Nat
  terminated : Bool
  deriving DecidableEq

/-- Modelled from the spec: classification of an agent reply (section 4.1b)
as plain text, tool calls (each with its result body), or a handoff
directive. -/
inductive Reply where
  | text (body : List Char)
  | toolUse (calls : List (List Char × List Char))
  | handoff (target : String) (body : List Char)

/-- The declared handoff targets of the named agent, from the roster. -/
def targetsOf (name : String) : List String :=
  ((participants.find? (fun a => a.name == name)).map AgentCfg.handoffs).getD []

/-- Outcome of routing a reply (spec section 4.2). -/
inductive HandoffOutcome where
  | stay
  | transferTo (t : String)
  | invalidTarget (t : String)
  deriving DecidableEq

/-- Modelled from the spec: the HandoffRouter (section 4.2).  A handoff
directive transfers control when its target is among the issuing agent's
allowed targets and is otherwise an invalid target; a reply without a
directive stays. -/
def route (allowed : List String) (r : Reply) : HandoffOutcome :=
  match r with
  | .handoff t _ => if t ∈ allowed then .transferTo t else .invalidTarget t
  | _ => .stay

/-- The termination pattern configured in swarm.py, line 184. -/
def termPattern : List Char := "TERMINATE".data

/-- Modelled from the spec: the TextMention termination check (section 4.4),
satisfied when any message body contains the pattern as an exact,
case-sensitive substring. -/
def anyMention (pat : List Char) (ms : List Msg) : Bool :=
  ms.any (fun m => containsSub pat m.body)

/-- The messages appended to the transcript by one turn of the active agent
(spec section 4.1c-d): the agent's own text, its tool calls each paired with
exactly one tool result, or a handoff directive message on a legal handoff
and an error message on an illegal one. -/
def replyMsgs (active : String) : Reply → List Msg
  | .text b => [⟨active, .text, b⟩]
  | .toolUse calls =>
      calls.map (fun c => ⟨active, .toolCall, c.1⟩)
        ++ calls.map (fun c => ⟨active, .toolResult, c.2⟩)
  | .handoff t b =>
      match route (targetsOf active) (.handoff t b) with
      | .transferTo _ => [⟨active, .handoffDirective, b⟩]
      | _ => [⟨active, .errorMsg, b⟩]

/-- The active agent after one turn (spec section 4.1d): it changes only on
a legal handoff. -/
def replyActive (active : String) : Reply → String
  | .handoff t b =>
      match route (targetsOf active) (.handoff t b) with
      | .transferTo u => u
      | _ => active
  | _ => active

/-- One turn of the orchestration loop (spec section 4.1, steps a-f):
append the turn's messages, update the active agent, count the turn, and
re-evaluate the termination condition. -/
def stepFn (s : ConvState) (r : Reply) : ConvState :=
  { transcript := s.transcript ++ replyMsgs s.active r,
    active := replyActive s.active r,
    turnCount := s.turnCount + 1,
    terminated := anyMention termPattern (s.transcript ++ replyMsgs s.active r) }

/-- The task submitted to the swarm (swarm.py, line 192). -/
def theTask : List Char := "为特斯拉(TSLA)股票进行市场研究，并用中文回答".data

/-- The initial conversation state: the task message, the first participant
active, and no termination (the pattern is triggered by agent text, not by
the user task). -/
def initState : ConvState :=
  { transcript := [⟨"user", .task, theTask⟩],
    active := "planner",
    turnCount := 0,
    terminated := false }

/-- The loop takes a turn only while not terminated (spec section 4.1,
step 2). -/
def Step (s s2 : ConvState) : Prop :=
  s.terminated = false ∧ ∃ r, s2 = stepFn s r

/-- States reachable by the orchestration loop from the initial state. -/
def Reachable (s : ConvState) : Prop :=
  Relation.ReflTransGen Step initState s

/-- Whether a message justifies a change of speaker right after it: a
handoff directive, a tool result, or the initial task message. -/
def justifies (m : Msg) : Bool :=
  m.kind == .handoffDirective || m.kind == .toolResult || m.kind == .task

/-- Whether an adjacent pair of messages is legal: same sender, or the
earlier message justifies the switch. -/
def okPair (m1 m2 : Msg) : Bool :=
  m1.sender == m2.sender || justifies m1

/-- The single-speaker transcript invariant: every adjacent pair is legal. -/
def chainOk : List Msg → Bool
  | [] => true
  | [_] => true
  | m1 :: m2 :: rest => okPair m1 m2 && chainOk (m2 :: rest)

/-- Whether the last transcript message connects legally to the active
agent's next message. -/
def lastOkT (t : List Msg) (a : String) : Bool :=
  match t.getLast? with
  | none => true
  | some m => m.sender == a || justifies m

/-- The inductive invariant of the loop. -/
def Inv (s : ConvState) : Prop :=
  chainOk s.transcript = true ∧
  lastOkT s.transcript s.active = true ∧
  s.terminated = anyMention termPattern s.transcript

theorem mem_of_getLast?M {α : Type} {l : List α} {m : α}
    (h : l.getLast? = some m) : m ∈ l := by
  induction l with
  | nil => simp at h
  | cons a t ih =>
    cases t with
    | nil =>
      simp only [List.getLast?_singleton, Option.some.injEq] at h
      simp [h]
    | cons b u =>
      rw [List.getLast?_cons_cons] at h
      exact List.mem_cons_of_mem _ (ih h)

theorem mem_of_head?M {α : Type} {l : List α} {m : α}
    (h : l.head? = some m) : m ∈ l := by
  cases l with
  | nil => simp at h
  | cons a t =>
    simp only [List.head?_cons, Option.some.injEq] at h
    simp [h]

theorem chainOk_of_same (xs : List Msg) (a : String)
    (h : ∀ m ∈ xs, m.sender = a) : chainOk xs = true := by
  induction xs with
  | nil => rfl
  | cons x t ih =>
    cases t with
    | nil => rfl
    | cons y u =>
      have hx : x.sender = a := h x (by simp)
      have hy : y.sender = a := h y (by simp)
      have ih2 := ih (fun m hm => h m (List.mem_cons_of_mem _ hm))
      simp only [chainOk, Bool.and_eq_true]
      exact ⟨by simp [okPair, hx, hy], ih2⟩

theorem chainOk_append (xs ys : List Msg)
    (h1 : chainOk xs = true) (h2 : chainOk ys = true)
    (h3 : ∀ x y, xs.getLast? = some x → ys.head? = some y → okPair x y = true) :
    chainOk (xs ++ ys) = true := by
  induction xs with
  | nil => simpa using h2
  | cons x t ih =>
    cases t with
    | nil =>
      cases ys with
      | nil => simpa
      | cons y u =>
        have hb := h3 x y rfl rfl
        simp only [List.singleton_append, chainOk, Bool.and_eq_true]
        exact ⟨hb, h2⟩
    | cons z u =>
      simp only [chainOk, Bool.and_eq_true] at h1
      have ih2 := ih h1.2 (fun a b hla hlb =>
        h3 a b (by rw [List.getLast?_cons_cons]; exact hla) hlb)
      simp only [List.cons_append, chainOk, Bool.and_eq_true]
      refine ⟨h1.1, ?_⟩
      simpa using ih2

theorem replyMsgs_sender (a : String) (r : Reply) :
    ∀ m ∈ replyMsgs a r, m.sender = a := by
  intro m hm
  cases r with
  | text b =>
    simp only [replyMsgs, List.mem_singleton] at hm
    subst hm
    rfl
  | toolUse calls =>
    simp only [replyMsgs, List.mem_append, List.mem_map] at hm
    rcases hm with ⟨c, _, rfl⟩ | ⟨c, _, rfl⟩ <;> rfl
  | handoff t b =>
    by_cases hc : t ∈ targetsOf a <;>
      simp only [replyMsgs, route, hc, if_pos, if_neg, not_false_iff,
        List.mem_singleton] at hm <;>
      (subst hm; rfl)

theorem inv_init : Inv initState := by
  refine ⟨rfl, rfl, ?_⟩
  decide

theorem inv_step (s : ConvState) (r : Reply) (h : Inv s) : Inv (stepFn s r) := by
  obtain ⟨hc, hl, _⟩ := h
  refine ⟨?_, ?_, rfl⟩
  · show chainOk (s.transcript ++ replyMsgs s.active r) = true
    apply chainOk_append _ _ hc
      (chainOk_of_same _ s.active (replyMsgs_sender s.active r))
    intro x y hx hy
    have hys : y.sender = s.active :=
      replyMsgs_sender s.active r y (mem_of_head?M hy)
    unfold lastOkT at hl
    rw [hx] at hl
    unfold okPair
    rw [hys]
    exact hl
  · show lastOkT (s.transcript ++ replyMsgs s.active r) (replyActive s.active r) = true
    cases r with
    | text b =>
      unfold lastOkT
      rw [show replyMsgs s.active (.text b) = [⟨s.active, .text, b⟩] from rfl,
        List.getLast?_concat]
      simp [replyActive]
    | toolUse calls =>
      cases hys : (replyMsgs s.active (.toolUse calls)).getLast? with
      | none =>
        have hnil := List.getLast?_eq_none_iff.mp hys
        rw [hnil, List.append_nil]
        exact hl
      | some m =>
        have hsend : m.sender = s.active :=
          replyMsgs_sender s.active _ m (mem_of_getLast?M hys)
        unfold lastOkT
        rw [List.getLast?_append, hys]
        simp [replyActive, hsend]
    | handoff t b =>
      by_cases hcm : t ∈ targetsOf s.active
      · have hm : replyMsgs s.active (.handoff t b)
            = [⟨s.active, .handoffDirective, b⟩] := by
          simp [replyMsgs, route, hcm]
        rw [hm]
        unfold lastOkT
        rw [List.getLast?_concat]
        simp [justifies]
      · have hm : replyMsgs s.active (.handoff t b)
            = [⟨s.active, .errorMsg, b⟩] := by
          simp [replyMsgs, route, hcm]
        have ha : replyActive s.active (.handoff t b) = s.active := by
          simp [replyActive, route, hcm]
        rw [hm, ha]
        unfold lastOkT
        rw [List.getLast?_concat]
        simp

theorem inv_reachable (s : ConvState) (h : Reachable s) : Inv s := by
  induction h with
  | refl => exact inv_init
  | tail _ hbc ih =>
    obtain ⟨_, r, rfl⟩ := hbc
    exact inv_step _ r ih

/-- C5: in every reachable conversation state the transcript satisfies the
single-speaker invariant — any two consecutive messages have the same
sender unless the earlier one is a handoff directive, a tool result or the
initial task message, the transitions the loop switches speaker on.  The
state structure carries a single `active` field, so exactly one agent is
active at any instant by construction, and `stepFn` invokes only that
agent. -/
theorem c5_single_speaker (s : ConvState) (h : Reachable s) :
    chainOk s.transcript = true :=
  (inv_reachable s h).1

/-- Witness for C5 at the initial state. -/
theorem c5_single_speaker_witness : chainOk initState.transcript = true :=
  c5_single_speaker initState Relation.ReflTransGen.refl

/-- C3: the TextMention check holds exactly when some transcript message
body contains the exact substring TERMINATE, and from any reachable state
whose transcript contains that substring the loop takes no further turn. -/
theorem c3_termination_text_mention :
    (∀ ms : List Msg, anyMention termPattern ms = true ↔
        ∃ m ∈ ms, ∃ l r, m.body = l ++ termPattern ++ r) ∧
    (∀ s s2 : ConvState, Reachable s →
        (∃ m ∈ s.transcript, ∃ l r, m.body = l ++ termPattern ++ r) →
        ¬ Step s s2) := by
  constructor
  · intro ms
    simp only [anyMention, List.any_eq_true, containsSub_iff]
  · intro s s2 hreach hex hstep
    obtain ⟨hterm, _, _⟩ := hstep
    have h3 := (inv_reachable s hreach).2.2
    have hmention : anyMention termPattern s.transcript = true := by
      simp only [anyMention, List.any_eq_true, containsSub_iff]
      exact hex
    rw [h3, hmention] at hterm
    exact Bool.noConfusion hterm

/-- A state one turn after the start, in which the planner has said
TERMINATE. -/
def stateT : ConvState := stepFn initState (.text termPattern)

/-- Witness for C3: from the concrete reachable state whose second message
says TERMINATE, no further turn is possible. -/
theorem c3_termination_text_mention_witness :
    ¬ Step stateT (stepFn stateT (.text [])) :=
  c3_termination_text_mention.2 stateT (stepFn stateT (.text []))
    (Relation.ReflTransGen.single ⟨rfl, .text termPattern, rfl⟩)
    ⟨⟨"planner", .text, termPattern⟩, by decide, [], [], by simp⟩

/-- Invalid handoffs leave the active agent in place and append an error
message; the resulting state is an ordinary state of the loop. -/
theorem step_handoff_invalid (s : ConvState) (t : String) (b : List Char)
    (hm : t ∉ targetsOf s.active) :
    (stepFn s (.handoff t b)).active = s.active ∧
    (stepFn s (.handoff t b)).transcript
      = s.transcript ++ [⟨s.active, .errorMsg, b⟩] := by
  constructor
  · show replyActive s.active (.handoff t b) = s.active
    simp [replyActive, route, hm]
  · show s.transcript ++ replyMsgs s.active (.handoff t b)
      = s.transcript ++ [⟨s.active, .errorMsg, b⟩]
    simp [replyMsgs, route, hm]

/-- C4: each specialist agent may legally hand off only to the planner; a
directive naming any other target routes to InvalidTarget, and the
corresponding turn appends an error message and keeps the active agent
unchanged, the loop continuing normally (the model has no aborting
transition). -/
theorem c4_specialist_handoffs (a : AgentCfg)
    (ha : a ∈ [financial_analyst, news_analyst, writer])
    (t : String) (b : List Char) (s : ConvState) (hs : s.active = a.name) :
    (∀ u, route (targetsOf s.active) (.handoff t b) = .transferTo u →
        u = "planner") ∧
    (t ∉ a.handoffs →
        route (targetsOf s.active) (.handoff t b) = .invalidTarget t ∧
        (stepFn s (.handoff t b)).active = s.active ∧
        (stepFn s (.handoff t b)).transcript
          = s.transcript ++ [⟨s.active, .errorMsg, b⟩]) := by
  have hh : a.handoffs = ["planner"] := by
    fin_cases ha <;> rfl
  have hta : targetsOf a.name = ["planner"] := by
    fin_cases ha <;> rfl
  constructor
  · intro u hu
    rw [hs, hta] at hu
    by_cases hmem : t ∈ (["planner"] : List String)
    · rw [route, if_pos hmem] at hu
      injection hu with h2
      subst h2
      simpa using hmem
    · rw [route, if_neg hmem] at hu
      exact HandoffOutcome.noConfusion hu
  · intro hnot
    rw [hh] at hnot
    have hm : t ∉ targetsOf s.active := by
      rw [hs, hta]
      exact hnot
    refine ⟨?_, step_handoff_invalid s t b hm⟩
    rw [hs, hta]
    rw [route, if_neg hnot]

/-- A bare state in which the financial analyst holds the floor. -/
def stateFA : ConvState :=
  { transcript := [], active := "financial_analyst", turnCount := 0,
    terminated := false }

/-- Witness for C4: the financial analyst handing off to the planner is the
only legal transfer, and handing off to the writer is rejected in place. -/
theorem c4_specialist_handoffs_witness :
    (("planner" : String) = "planner") ∧
    (route (targetsOf stateFA.active) (.handoff "writer" [])
        = .invalidTarget "writer" ∧
      (stepFn stateFA (.handoff "writer" [])).active = stateFA.active ∧
      (stepFn stateFA (.handoff "writer" [])).transcript
        = stateFA.transcript ++ [⟨stateFA.active, .errorMsg, []⟩]) := by
  constructor
  · exact (c4_specialist_handoffs financial_analyst (by decide) "planner" []
      stateFA rfl).1 "planner" (by decide)
  · exact (c4_specialist_handoffs financial_analyst (by decide) "writer" []
      stateFA rfl).2 (by decide)

end SwarmSpec
